import Mathlib

/-!
Verification development for the SimpSOM self-organizing-map library
(`simpsom/network.py`).  The Python source is shallowly embedded:
pure numerical routines become Lean functions over `ℚ` (where the code is
executable) or `ℝ` (where it uses `sqrt`/`exp`/`log`), mutation becomes
explicit state passing, and operations that can raise Python exceptions
(`IndexError`, `ZeroDivisionError`) return `Option`.

Definitions come first (each names the Python source function it embeds, or
is marked `Modelled from the spec:` when the corresponding module is not
part of the sources), then the theorems.
-/

namespace SimpSOM

/-! ## Definitions -/

/-! ### List minimum and first-occurrence argmin

Embeds Python's `min(list)` (used by `SOMNode.get_node_distance`) and
`numpy.argmin` (used by `SOMNet.find_bmu_ix`); `numpy.argmin` returns the
first index attaining the minimum. -/

/-- Python `min` over a nonempty list `x :: xs`. -/
def listMin1 {α : Type} [LinearOrder α] (x : α) : List α → α
  | [] => x
  | y :: ys => min x (listMin1 y ys)

/-- `numpy.argmin` over a nonempty list: index of the first occurrence of the
minimum.  On the empty list we return 0 (numpy raises; the callers below
always pass a nonempty list). -/
def argminFirst : List ℚ → ℕ
  | [] => 0
  | [_] => 0
  | x :: y :: ys => if x ≤ listMin1 y ys then 0 else argminFirst (y :: ys) + 1

/-! ### BMU search (`SOMNet.find_bmu_ix`, network.py lines 362-379)

`find_bmu_ix` computes `dist.pairdist(vecs, all_weights, metric)` and takes
`argmin(dists, axis=1)`.  `simpsom/distances.py` is not under `src/`, so the
pairwise-distance row is modelled from the spec (§4.2): entry `j` of the row
for query `q` is the metric distance between `q` and weight row `j`.  The
metric itself is a parameter `d`, covering all configured metrics. -/

/-- Modelled from the spec: `dist.pairdist` (§4.2), restricted to a single
query row — "row i, column j equals the pairwise distance between batch row
i and weight row j". -/
def pairdistRow (d : List ℚ → List ℚ → ℚ) (q : List ℚ)
    (ws : List (List ℚ)) : List ℚ :=
  ws.map (d q)

/-- Embeds `SOMNet.find_bmu_ix` for one query vector: `argmin` (first
occurrence, as `numpy.argmin`) over the distances to every node weight,
in node order. -/
def find_bmu_ix (d : List ℚ → List ℚ → ℚ) (q : List ℚ)
    (ws : List (List ℚ)) : ℕ :=
  argminFirst (pairdistRow d q ws)

/-- Modelled from the spec: `manhattan(u, v) = sum(|u_i - v_i|)` (§4.2);
`simpsom/distances.py` is not under `src/`. -/
def manhattan (u v : List ℚ) : ℚ :=
  ((u.zip v).map (fun p => |p.1 - p.2|)).sum

/-! ### Batch epoch weight replacement (`SOMNet.train`, network.py line 546)

After accumulating the kernel-weighted numerator and denominator over all
chunks the code runs
`new_weights = cp.where(denominator != 0, numerator / denominator, all_weights)`.
Per node: when the accumulated denominator is nonzero the node's weight row
becomes `numerator/denominator` elementwise; otherwise the previous weights
are kept.  (numpy evaluates `numerator / denominator` everywhere but `where`
discards the entries at zero denominators; division in `ℚ` is total, so the
selection is faithful.)  The denominator has one scalar per node, broadcast
over the feature columns. -/

/-- Embeds the `cp.where` weight replacement: arguments are the accumulated
numerator rows (one per node), the accumulated denominator scalars (one per
node) and the previous weight rows. -/
def batchNewWeights : List (List ℚ) → List ℚ → List (List ℚ) → List (List ℚ)
  | nv :: nvs, d :: ds, ov :: ovs =>
      (if d ≠ 0 then nv.map (fun a => a / d) else ov) :: batchNewWeights nvs ds ovs
  | _, _, _ => []

/-! ### Decay schedules (`SOMNet.update_sigma`, `SOMNet.update_learning_rate`,
`SOMNet.train` preamble; network.py lines 338-359 and 410-421) -/

/-- Embeds `SOMNet.update_learning_rate` (network.py lines 350-359):
`learning_rate = start_learning_rate * exp(n_iter/self.epochs)`.
Note the positive exponent in the source. -/
noncomputable def update_learning_rate (start_learning_rate epochs : ℝ)
    (n_iter : ℕ) : ℝ :=
  start_learning_rate * Real.exp ((n_iter : ℝ) / epochs)

/-- Embeds `SOMNet.update_sigma` (network.py lines 338-347):
`sigma = start_sigma * exp(-n_iter/tau)`. -/
noncomputable def update_sigma (start_sigma tau : ℝ) (n_iter : ℕ) : ℝ :=
  start_sigma * Real.exp (-((n_iter : ℝ) / tau))

/-- Embeds `train`'s `start_sigma` (network.py line 412):
`max(net_height, net_width)/2`. -/
noncomputable def trainStartSigma (net_height net_width : ℕ) : ℝ :=
  (max net_height net_width : ℝ) / 2

/-- Embeds `train`'s epoch defaulting (network.py lines 417-418):
`if epochs == -1: epochs = data.shape[0]*10`. -/
def trainEpochs (epochs : ℤ) (n_samples : ℕ) : ℤ :=
  if epochs = -1 then (n_samples : ℤ) * 10 else epochs

/-- Embeds `train`'s `tau` (network.py line 421):
`tau = epochs/log(start_sigma)`.  Python raises `ZeroDivisionError` when
`log(start_sigma) == 0.0` (an `int` divided by the float `0.0`), modelled
as `none`. -/
noncomputable def trainTau (net_height net_width : ℕ) (epochs : ℤ) : Option ℝ :=
  if Real.log (trainStartSigma net_height net_width) = 0 then none
  else some ((epochs : ℝ) / Real.log (trainStartSigma net_height net_width))

/-- The per-epoch sigma as computed by `train`: `start_sigma` and `tau` from
the network dimensions and the (defaulted) epoch count, then `update_sigma`
at epoch `n_iter`; `none` when the `tau` computation already raised. -/
noncomputable def trainSigma (net_height net_width : ℕ) (epochs : ℤ)
    (n_samples n_iter : ℕ) : Option ℝ :=
  (trainTau net_height net_width (trainEpochs epochs n_samples)).map
    (fun tau => update_sigma (trainStartSigma net_height net_width) tau n_iter)

/-- Follows the spec's words (§4.6, refinement target for C9):
`sigma = start_sigma * exp(-epoch/tau)` where
`start_sigma = max(height,width)/2` and `tau = epochs/ln(start_sigma)`. -/
noncomputable def sigmaSpecFormula (net_height net_width : ℕ) (epochs : ℝ)
    (n_iter : ℕ) : ℝ :=
  ((max net_height net_width : ℝ) / 2) *
    Real.exp (-((n_iter : ℝ) /
      (epochs / Real.log ((max net_height net_width : ℝ) / 2))))

/-! ### Neighborhood-kernel dispatch (`SOMNet.train`, network.py lines 482-489)

```
if self.neighborhood_fun == "bubble": ...bubble...
elif self.neighborhood_fun == "mexican": ...mexican_hat...
else: ...gaussian...
```
There is no error branch: every name other than `"bubble"` and `"mexican"`
selects the gaussian kernel. -/

inductive KernelChoice where
  | bubble
  | mexican
  | gaussian
deriving DecidableEq

/-- Embeds the `neighborhood_fun` dispatch of `train`. -/
def selectNeighborhood (neighborhood_fun : String) : KernelChoice :=
  if neighborhood_fun = "bubble" then KernelChoice.bubble
  else if neighborhood_fun = "mexican" then KernelChoice.mexican
  else KernelChoice.gaussian

/-! ### Node-to-node lattice distance (`SOMNode.get_node_distance`,
network.py lines 1008-1057) -/

inductive Topology where
  | hexagonal
  | rectangular
deriving DecidableEq

/-- Plain Euclidean distance between two lattice positions. -/
noncomputable def euclid2 (p q : ℝ × ℝ) : ℝ :=
  Real.sqrt ((p.1 - q.1) ^ 2 + (p.2 - q.2) ^ 2)

/-- The vertical wrap period `net_height*2/sqrt(3)*3/4` of the hexagonal
PBC distance. -/
noncomputable def hexVerticalPeriod (net_height : ℕ) : ℝ :=
  (net_height : ℝ) * 2 / Real.sqrt 3 * 3 / 4

/-- The row-parity offset: `0` if `net_height` is even, `0.5` otherwise. -/
noncomputable def hexOffset (net_height : ℕ) : ℝ :=
  if net_height % 2 = 0 then 0 else 0.5

/-- The nine candidate distances of the hexagonal-PBC branch of
`SOMNode.get_node_distance`, in source order (plain, right, bottom, left,
top, bottom right, bottom left, top right, top left). -/
noncomputable def hexPBCCandidates (net_height net_width : ℕ)
    (p q : ℝ × ℝ) : List ℝ :=
  let dx := p.1 - q.1
  let dy := p.2 - q.2
  let W : ℝ := net_width
  let V := hexVerticalPeriod net_height
  let off := hexOffset net_height
  [Real.sqrt (dx ^ 2 + dy ^ 2),
   Real.sqrt ((dx + W) ^ 2 + dy ^ 2),
   Real.sqrt ((dx + off) ^ 2 + (dy + V) ^ 2),
   Real.sqrt ((dx - W) ^ 2 + dy ^ 2),
   Real.sqrt ((dx - off) ^ 2 + (dy - V) ^ 2),
   Real.sqrt ((dx + W + off) ^ 2 + (dy + V) ^ 2),
   Real.sqrt ((dx - W + off) ^ 2 + (dy + V) ^ 2),
   Real.sqrt ((dx + W - off) ^ 2 + (dy - V) ^ 2),
   Real.sqrt ((dx - W - off) ^ 2 + (dy - V) ^ 2)]

/-- Embeds `SOMNode.get_node_distance` (network.py lines 1008-1057): with
PBC and hexagonal topology, Python's `min` over the nine candidates;
otherwise the plain Euclidean distance. -/
noncomputable def get_node_distance (PBC : Bool) (topology : Topology)
    (net_height net_width : ℕ) (p q : ℝ × ℝ) : ℝ :=
  if PBC = true ∧ topology = Topology.hexagonal then
    match hexPBCCandidates net_height net_width p q with
    | [] => 0
    | c :: cs => listMin1 c cs
  else euclid2 p q

/-- Follows the spec's words (C4): the nine candidate translations of the
second point — identity, ±width horizontally, ±vertical period with the
row-parity offset, and the four diagonal combinations. -/
noncomputable def hexPBCTranslations (net_height net_width : ℕ) : List (ℝ × ℝ) :=
  let W : ℝ := net_width
  let V := hexVerticalPeriod net_height
  let off := hexOffset net_height
  [(0, 0),
   (-W, 0),
   (-off, -V),
   (W, 0),
   (off, V),
   (-W - off, -V),
   (W - off, -V),
   (-W + off, V),
   (W + off, V)]

/-! ### Early stopping in the batch loop (`SOMNet.train`,
network.py lines 491-502 and 548-576)

The loop breaks at the top of an epoch when
`early_stop_counter == early_stop_patience`; at the end of an epoch the
counter is incremented when `n_iter > 0` and
`convergence[-2] - convergence[-1] < early_stop_tolerance`, and reset to 0
otherwise.  The convergence score appended at epoch `n` is abstracted as
`f n` (its computation calls `dist.pairdist`, which lives in
`simpsom/distances.py`, not under `src/`). -/

/-- Embeds the per-epoch counter update (network.py lines 573-576). -/
def earlyStopCounterStep (f : ℕ → ℚ) (tol : ℚ) (n_iter counter : ℕ) : ℕ :=
  if 0 < n_iter ∧ f (n_iter - 1) - f n_iter < tol then counter + 1 else 0

/-- Embeds the batch epoch loop control: starting at epoch `n_iter` with the
given counter and `fuel` epochs remaining, returns how many epoch bodies
run before the loop ends (break or epoch exhaustion). -/
def batchEpochsRun (f : ℕ → ℚ) (tol : ℚ) (patience : ℕ) :
    ℕ → ℕ → ℕ → ℕ
  | 0, _, _ => 0
  | fuel + 1, n_iter, counter =>
    if counter = patience then 0
    else
      batchEpochsRun f tol patience fuel (n_iter + 1)
        (earlyStopCounterStep f tol n_iter counter) + 1

/-- The number of epochs executed by a batch training run of `epochs`
epochs with early stopping enabled. -/
def batchTrainEpochs (f : ℕ → ℚ) (tol : ℚ) (patience epochs : ℕ) : ℕ :=
  batchEpochsRun f tol patience epochs 0 0

/-- A concrete plateauing convergence trace: one genuine improvement at
epoch 1, then constant. -/
def plateauTrace (n : ℕ) : ℚ :=
  if n = 0 then 10 else 5

/-! ### Persistence (`SOMNet.save`, network.py lines 322-335, and the
`load_file` branch of `SOMNet.__init__`, lines 151-183) -/

/-- Network state relevant to persistence: the dimensions, the PBC flag and
the node weight rows in the flattened `x*net_height + y` order in which
`__init__`'s double loop creates `node_list`. -/
structure SOMNetState where
  net_height : ℕ
  net_width : ℕ
  PBC : Bool
  node_weights : List (List ℚ)

/-- Python list element assignment `l[i] = v`: `IndexError` (`none`) when
`i` is out of range. -/
def setIdx (l : List ℚ) (i : ℕ) (v : ℚ) : Option (List ℚ) :=
  if i < l.length then some (l.set i v) else none

/-- Embeds `SOMNet.save`: `wei_array[0]` is a zero row of length
`len(node_list[0].weights)` whose entries 0, 1, 2 are assigned the height,
the width and `int(PBC)`; the weight rows follow in node order.  `none`
models the `IndexError` raised when the zero row is too short (and the
`IndexError` of `node_list[0]` on an empty network). -/
def save (net : SOMNetState) : Option (List (List ℚ)) :=
  match net.node_weights with
  | [] => none
  | w0 :: _ =>
    (setIdx (List.replicate w0.length 0) 0 (net.net_height : ℚ)).bind fun r0 =>
      (setIdx r0 1 (net.net_width : ℚ)).bind fun r1 =>
        (setIdx r1 2 (if net.PBC then 1 else 0)).bind fun r2 =>
          some (r2 :: net.node_weights)

/-- Python `int()` on a stored nonnegative dimension (floor agrees with
truncation there). -/
def ratToNat (q : ℚ) : ℕ :=
  (⌊q⌋).toNat

/-- Embeds the `load_file` branch of `SOMNet.__init__`: row 0 yields
`net_height = int(arr[0][0])`, `net_width = int(arr[0][1])`,
`PBC = bool(arr[0][2])`; the double loop then reads `net_width*net_height`
weight rows starting at row 1, in the same flattened order.  `none` models
the `IndexError` on a metadata row shorter than 3 or on a file with fewer
weight rows than nodes. -/
def load : List (List ℚ) → Option SOMNetState
  | [] => none
  | r0 :: rest =>
    if 3 ≤ r0.length then
      let h := ratToNat (r0.getD 0 0)
      let w := ratToNat (r0.getD 1 0)
      let pbc : Bool := decide (r0.getD 2 0 ≠ 0)
      if w * h ≤ rest.length then
        some ⟨h, w, pbc, rest.take (w * h)⟩
      else none
    else none

/-! ## Theorems -/

theorem listMin1_le_head {α : Type} [LinearOrder α] (x : α) (l : List α) :
    listMin1 x l ≤ x := by
  cases l with
  | nil => simp [listMin1]
  | cons y ys => simp [listMin1]

theorem listMin1_le {α : Type} [LinearOrder α] (x : α) (l : List α) :
    ∀ a ∈ x :: l, listMin1 x l ≤ a := by
  induction l generalizing x with
  | nil =>
    intro a ha
    simp only [List.mem_singleton] at ha
    simp [listMin1, ha]
  | cons y ys ih =>
    intro a ha
    rcases List.mem_cons.mp ha with h | h
    · rw [h]; exact listMin1_le_head x (y :: ys)
    · calc listMin1 x (y :: ys) = min x (listMin1 y ys) := rfl
        _ ≤ listMin1 y ys := min_le_right _ _
        _ ≤ a := ih y a h

theorem listMin1_mem {α : Type} [LinearOrder α] (x : α) (l : List α) :
    listMin1 x l ∈ x :: l := by
  induction l generalizing x with
  | nil => simp [listMin1]
  | cons y ys ih =>
    rcases le_total x (listMin1 y ys) with h | h
    · simp [listMin1, min_eq_left h]
    · have : listMin1 x (y :: ys) = listMin1 y ys := by simp [listMin1, min_eq_right h]
      rw [this]
      exact List.mem_cons_of_mem x (ih y)

theorem argminFirst_lt_length (l : List ℚ) (h : l ≠ []) :
    argminFirst l < l.length := by
  induction l with
  | nil => simp at h
  | cons x xs ih =>
    cases xs with
    | nil => simp [argminFirst]
    | cons y ys =>
      by_cases hx : x ≤ listMin1 y ys
      · simp [argminFirst, hx]
      · have := ih (by simp)
        simp only [argminFirst, if_neg hx, List.length_cons] at this ⊢
        omega

/-- The value at the argmin index is the list's minimum. -/
theorem argminFirst_getD (x : ℚ) (xs : List ℚ) :
    (x :: xs).getD (argminFirst (x :: xs)) 0 = listMin1 x xs := by
  induction xs generalizing x with
  | nil => simp [argminFirst, listMin1]
  | cons y ys ih =>
    by_cases hx : x ≤ listMin1 y ys
    · simp [argminFirst, if_pos hx, listMin1, min_eq_left hx]
    · push_neg at hx
      simp only [argminFirst, if_neg (not_le.mpr hx), List.getD_cons_succ, listMin1]
      rw [ih y, min_eq_right (le_of_lt hx)]

theorem argminFirst_is_min (x : ℚ) (xs : List ℚ) :
    ∀ j < (x :: xs).length,
      (x :: xs).getD (argminFirst (x :: xs)) 0 ≤ (x :: xs).getD j 0 := by
  intro j hj
  rw [argminFirst_getD]
  have hmem : (x :: xs).getD j 0 ∈ x :: xs := by
    rw [List.getD_eq_getElem _ _ hj]
    exact List.getElem_mem hj
  exact listMin1_le x xs _ hmem

/-- Strict first-occurrence property: strictly smaller value than at all
earlier indices (the argmin is the FIRST occurrence of the minimum). -/
theorem argminFirst_first_occ (x : ℚ) (xs : List ℚ) :
    ∀ j < argminFirst (x :: xs),
      (x :: xs).getD (argminFirst (x :: xs)) 0 < (x :: xs).getD j 0 := by
  induction xs generalizing x with
  | nil => simp [argminFirst]
  | cons y ys ih =>
    by_cases hx : x ≤ listMin1 y ys
    · simp [argminFirst, if_pos hx]
    · push_neg at hx
      intro j hj
      simp only [argminFirst, if_neg (not_le.mpr hx)] at hj ⊢
      match j with
      | 0 =>
        simp only [List.getD_cons_succ, List.getD_cons_zero]
        rw [argminFirst_getD]
        exact lt_of_le_of_lt (by rfl) hx
      | j + 1 =>
        simp only [List.getD_cons_succ]
        exact ih y j (by omega)

theorem pairdistRow_getD (d : List ℚ → List ℚ → ℚ) (q : List ℚ)
    (ws : List (List ℚ)) (j : ℕ) (hj : j < ws.length) :
    (pairdistRow d q ws).getD j 0 = d q (ws.getD j []) := by
  have hj' : j < (pairdistRow d q ws).length := by
    simpa [pairdistRow] using hj
  rw [List.getD_eq_getElem _ _ hj', List.getD_eq_getElem _ _ hj]
  simp [pairdistRow]

/-- C2: BMU search is a stable argmin.  For every metric `d`, query `q` and
nonempty node-weight list `w :: ws` (in flattened node order),
`find_bmu_ix` returns a valid node index whose distance to the query is
minimal among all nodes, and every node with a strictly lower flattened
index is at a strictly larger distance — so on ties the node with the lower
flattened index (first occurrence in node order) is returned. -/
theorem C2_find_bmu_ix_stable_argmin
    (d : List ℚ → List ℚ → ℚ) (q w : List ℚ) (ws : List (List ℚ)) :
    find_bmu_ix d q (w :: ws) < (w :: ws).length ∧
    (∀ j < (w :: ws).length,
      d q ((w :: ws).getD (find_bmu_ix d q (w :: ws)) []) ≤
        d q ((w :: ws).getD j [])) ∧
    (∀ j < find_bmu_ix d q (w :: ws),
      d q ((w :: ws).getD (find_bmu_ix d q (w :: ws)) []) <
        d q ((w :: ws).getD j [])) := by
  have hcons : pairdistRow d q (w :: ws) = d q w :: pairdistRow d q ws := by
    simp [pairdistRow]
  have hlen : (pairdistRow d q (w :: ws)).length = (w :: ws).length := by
    simp [pairdistRow]
  simp only [find_bmu_ix]
  have hix : argminFirst (pairdistRow d q (w :: ws)) < (w :: ws).length := by
    have h := argminFirst_lt_length (pairdistRow d q (w :: ws))
      (by simp [pairdistRow])
    rwa [hlen] at h
  refine ⟨hix, ?_, ?_⟩
  · intro j hj
    have h1 := argminFirst_is_min (d q w) (pairdistRow d q ws)
    rw [← hcons] at h1
    have h2 := h1 j (by rwa [hlen])
    rwa [pairdistRow_getD d q (w :: ws) _ hix,
      pairdistRow_getD d q (w :: ws) j hj] at h2
  · intro j hj
    have h1 := argminFirst_first_occ (d q w) (pairdistRow d q ws)
    rw [← hcons] at h1
    have h2 := h1 j hj
    have hjlt : j < (w :: ws).length := lt_trans hj hix
    rwa [pairdistRow_getD d q (w :: ws) _ hix,
      pairdistRow_getD d q (w :: ws) j hjlt] at h2

/-- C1: batch training epoch update.  Given the numerator rows and
denominator scalars accumulated over all chunks of an epoch and the previous
weights, every node with nonzero accumulated denominator has its weight row
replaced by `numerator/denominator` elementwise, and every node with zero
accumulated denominator keeps its previous weight row unchanged. -/
theorem C1_batch_epoch_update (num : List (List ℚ)) (den : List ℚ)
    (old : List (List ℚ)) (h1 : num.length = den.length)
    (h2 : old.length = den.length) :
    ∀ j < den.length,
      (den.getD j 0 ≠ 0 →
        (batchNewWeights num den old).getD j [] =
          (num.getD j []).map (fun a => a / den.getD j 0)) ∧
      (den.getD j 0 = 0 →
        (batchNewWeights num den old).getD j [] = old.getD j []) := by
  induction den generalizing num old with
  | nil => intro j hj; simp at hj
  | cons dh dt ih =>
    cases num with
    | nil => simp at h1
    | cons nv nvs =>
      cases old with
      | nil => simp at h2
      | cons ov ovs =>
        intro j hj
        match j with
        | 0 =>
          by_cases hd : dh = 0
          · simp [batchNewWeights, hd]
          · simp [batchNewWeights, hd]
        | j + 1 =>
          simp only [batchNewWeights, List.getD_cons_succ]
          exact ih nvs ovs (by simpa using h1) (by simpa using h2) j
            (by simpa using hj)

/-- Witness for C1 on concrete accumulators: two nodes, the first with
denominator `2` (weights replaced by the elementwise quotient), the second
with denominator `0` (previous weights kept). -/
theorem C1_batch_epoch_update_witness :
    [[(4 : ℚ), 6], [1, 2]].length = [(2 : ℚ), 0].length ∧
    [[(9 : ℚ), 9], [7, 8]].length = [(2 : ℚ), 0].length ∧
    (1 < [(2 : ℚ), 0].length ∧
      (([(2 : ℚ), 0].getD 1 0 ≠ 0 →
        (batchNewWeights [[(4 : ℚ), 6], [1, 2]] [(2 : ℚ), 0]
            [[(9 : ℚ), 9], [7, 8]]).getD 1 [] =
          ([[(4 : ℚ), 6], [1, 2]].getD 1 []).map
            (fun a => a / [(2 : ℚ), 0].getD 1 0)) ∧
      ([(2 : ℚ), 0].getD 1 0 = 0 →
        (batchNewWeights [[(4 : ℚ), 6], [1, 2]] [(2 : ℚ), 0]
            [[(9 : ℚ), 9], [7, 8]]).getD 1 [] =
          [[(9 : ℚ), 9], [7, 8]].getD 1 []))) :=
  ⟨rfl, rfl, by decide,
    C1_batch_epoch_update [[(4 : ℚ), 6], [1, 2]] [(2 : ℚ), 0]
      [[(9 : ℚ), 9], [7, 8]] rfl rfl 1 (by decide)⟩

/-- C3 counterexample: with the default `start_learning_rate = 0.01` and
`epochs = 1`, the learning rate at epoch 1 is strictly LARGER than at epoch
0, refuting "monotonically decreasing in the epoch counter". -/
theorem C3_learning_rate_not_decreasing :
    update_learning_rate (1 / 100) 1 0 < update_learning_rate (1 / 100) 1 1 := by
  unfold update_learning_rate
  have hexp : Real.exp ((0 : ℕ) / (1 : ℝ)) < Real.exp ((1 : ℕ) / (1 : ℝ)) := by
    apply Real.exp_lt_exp.mpr
    norm_num
  have h100 : (0 : ℝ) < 1 / 100 := by norm_num
  exact mul_lt_mul_of_pos_left hexp h100

/-- C3 amended: the learning rate recomputed each epoch is
`start_learning_rate * exp(epoch/epochs)`: it starts from
`start_learning_rate` at epoch 0 and is monotonically INCREASING in the
epoch counter (the source's exponent is positive, the opposite of the sigma
decay). -/
theorem C3_learning_rate_growth (s E : ℝ) (hs : 0 < s) (hE : 0 < E) :
    update_learning_rate s E 0 = s ∧
    ∀ n m : ℕ, n < m →
      update_learning_rate s E n < update_learning_rate s E m := by
  constructor
  · unfold update_learning_rate
    simp
  · intro n m hnm
    unfold update_learning_rate
    have hcast : (n : ℝ) < (m : ℝ) := by exact_mod_cast hnm
    have hdiv : (n : ℝ) / E < (m : ℝ) / E := by
      exact div_lt_div_of_pos_right hcast hE
    exact mul_lt_mul_of_pos_left (Real.exp_lt_exp.mpr hdiv) hs

/-- Witness for C3 amended at `start_learning_rate = 0.01`, `epochs = 2`,
epochs 0 < 3. -/
theorem C3_learning_rate_growth_witness :
    (0 : ℝ) < 1 / 100 ∧ (0 : ℝ) < 2 ∧
      (update_learning_rate (1 / 100) 2 0 = 1 / 100 ∧
        ∀ n m : ℕ, n < m →
          update_learning_rate (1 / 100) 2 n < update_learning_rate (1 / 100) 2 m) :=
  ⟨by norm_num, by norm_num,
    C3_learning_rate_growth (1 / 100) 2 (by norm_num) (by norm_num)⟩

/-- C9: whenever `ln(start_sigma) ≠ 0` (so the `tau` computation does not
raise), the sigma used by `train` at epoch `n_iter` equals the spec formula
`start_sigma * exp(-epoch/tau)` with `start_sigma = max(height,width)/2` and
`tau = epochs/ln(start_sigma)`, where `epochs` is the configured count; and
when the caller passes `epochs = -1`, the epoch count defaults to 10 times
the number of datapoints. -/
theorem C9_sigma_decay_and_epoch_default (net_height net_width : ℕ)
    (epochs : ℤ) (n_samples n_iter : ℕ)
    (hlog : Real.log (trainStartSigma net_height net_width) ≠ 0) :
    trainSigma net_height net_width epochs n_samples n_iter =
      some (sigmaSpecFormula net_height net_width
        ((trainEpochs epochs n_samples : ℤ) : ℝ) n_iter) ∧
    trainEpochs (-1) n_samples = 10 * n_samples := by
  constructor
  · simp only [trainSigma, trainTau, if_neg hlog, Option.map_some]
    unfold update_sigma sigmaSpecFormula trainStartSigma
    rfl
  · unfold trainEpochs
    rw [if_pos rfl]
    ring

/-- Witness for C9 on a 4×2 network (`start_sigma = 2`, `ln 2 ≠ 0`) with
`epochs = -1` and 7 datapoints, at epoch 3. -/
theorem C9_sigma_decay_and_epoch_default_witness :
    Real.log (trainStartSigma 4 2) ≠ 0 ∧
      (trainSigma 4 2 (-1) 7 3 =
        some (sigmaSpecFormula 4 2 ((trainEpochs (-1) 7 : ℤ) : ℝ) 3) ∧
      trainEpochs (-1) 7 = 10 * 7) := by
  have hσ : trainStartSigma 4 2 = 2 := by
    unfold trainStartSigma
    norm_num
  have hlog : Real.log (trainStartSigma 4 2) ≠ 0 := by
    rw [hσ]
    exact ne_of_gt (Real.log_pos one_lt_two)
  exact ⟨hlog, C9_sigma_decay_and_epoch_default 4 2 (-1) 7 3 hlog⟩

/-- C7: the spec's §8 scenario (2×2 rectangular network, batch training for
5 epochs on the two datapoints `[[0.0],[10.0]]`) cannot complete:
`start_sigma = max(2,2)/2 = 1`, so `tau = epochs/log(start_sigma) = 5/0.0`
raises `ZeroDivisionError` in `train` before the first epoch — the sigma
pipeline evaluates to `none` at the failing input. -/
theorem C7_two_by_two_scenario_crashes :
    trainTau 2 2 (trainEpochs 5 2) = none ∧ trainSigma 2 2 5 2 0 = none := by
  have hσ : trainStartSigma 2 2 = 1 := by
    unfold trainStartSigma
    norm_num
  have htau : trainTau 2 2 (trainEpochs 5 2) = none := by
    unfold trainTau
    rw [hσ, Real.log_one]
    simp
  refine ⟨htau, ?_⟩
  unfold trainSigma
  rw [htau]
  rfl

/-- C8 counterexample: the kernel name `"mexican_hat"` — the very name the
spec lists as valid — is outside the two names the dispatch recognizes, yet
batch training does not fail: it silently selects the gaussian kernel. -/
theorem C8_unknown_kernel_not_rejected :
    selectNeighborhood "mexican_hat" = KernelChoice.gaussian := by
  decide

/-- C8 amended: the dispatch has no error branch; every `neighborhood_fun`
value other than `"bubble"` and `"mexican"` (including `"mexican_hat"` and
arbitrary unknown names) silently selects the gaussian kernel, and batch
training proceeds. -/
theorem C8_kernel_dispatch_defaults_to_gaussian (s : String)
    (hb : s ≠ "bubble") (hm : s ≠ "mexican") :
    selectNeighborhood s = KernelChoice.gaussian := by
  unfold selectNeighborhood
  rw [if_neg hb, if_neg hm]

/-- Witness for C8 amended at the unknown kernel name `"foo"`. -/
theorem C8_kernel_dispatch_defaults_to_gaussian_witness :
    ("foo" ≠ "bubble" ∧ "foo" ≠ "mexican") ∧
      selectNeighborhood "foo" = KernelChoice.gaussian :=
  ⟨⟨by decide, by decide⟩,
    C8_kernel_dispatch_defaults_to_gaussian "foo" (by decide) (by decide)⟩

/-- The nine source candidates are exactly the Euclidean distances to the
nine spec-described translations of the second point. -/
theorem hexPBCCandidates_eq_map (net_height net_width : ℕ) (p q : ℝ × ℝ) :
    hexPBCCandidates net_height net_width p q =
      (hexPBCTranslations net_height net_width).map
        (fun t => euclid2 p (q.1 + t.1, q.2 + t.2)) := by
  simp only [hexPBCCandidates, hexPBCTranslations, euclid2, List.map_cons,
    List.map_nil, List.cons.injEq, and_true]
  refine ⟨?_, ?_, ?_, ?_, ?_, ?_, ?_, ?_, ?_⟩ <;>
    exact congrArg Real.sqrt (by ring)

/-- C4: under hexagonal topology with PBC, `get_node_distance` is the
minimum of the Euclidean distances to the nine spec-described candidate
translations of the second point (it is a lower bound of all nine and is
attained by one of them), and in particular it never exceeds the plain
(non-wrapped) Euclidean distance. -/
theorem C4_hex_pbc_distance (net_height net_width : ℕ) (p q : ℝ × ℝ) :
    (∀ t ∈ hexPBCTranslations net_height net_width,
      get_node_distance true Topology.hexagonal net_height net_width p q ≤
        euclid2 p (q.1 + t.1, q.2 + t.2)) ∧
    (∃ t ∈ hexPBCTranslations net_height net_width,
      get_node_distance true Topology.hexagonal net_height net_width p q =
        euclid2 p (q.1 + t.1, q.2 + t.2)) ∧
    get_node_distance true Topology.hexagonal net_height net_width p q ≤
      euclid2 p q := by
  obtain ⟨c, cs, hc⟩ :
      ∃ c cs, hexPBCCandidates net_height net_width p q = c :: cs := by
    unfold hexPBCCandidates
    exact ⟨_, _, rfl⟩
  have hval : get_node_distance true Topology.hexagonal net_height net_width p q =
      listMin1 c cs := by
    unfold get_node_distance
    rw [if_pos ⟨rfl, rfl⟩, hc]
  have hle : ∀ a ∈ c :: cs, listMin1 c cs ≤ a := listMin1_le c cs
  have hmem : listMin1 c cs ∈ c :: cs := listMin1_mem c cs
  rw [← hc, hexPBCCandidates_eq_map] at hle hmem
  have hpart1 : ∀ t ∈ hexPBCTranslations net_height net_width,
      get_node_distance true Topology.hexagonal net_height net_width p q ≤
        euclid2 p (q.1 + t.1, q.2 + t.2) := by
    intro t ht
    rw [hval]
    exact hle _ (List.mem_map_of_mem _ ht)
  refine ⟨hpart1, ?_, ?_⟩
  · obtain ⟨t, ht, hteq⟩ := List.mem_map.mp hmem
    exact ⟨t, ht, by rw [hval]; exact hteq.symm⟩
  · have h0 : ((0 : ℝ), (0 : ℝ)) ∈ hexPBCTranslations net_height net_width := by
      unfold hexPBCTranslations
      simp
    have h1 := hpart1 _ h0
    simpa using h1

/-- On a full plateau (every epoch from `n` on stalls), the loop runs
exactly `3 - c` more epoch bodies from counter `c`. -/
theorem batchEpochsRun_plateau (f : ℕ → ℚ) (tol : ℚ) (n c fuel : ℕ)
    (hn : 1 ≤ n) (hstall : ∀ m, n ≤ m → f (m - 1) - f m < tol)
    (hc : c ≤ 3) (hfuel : 4 - c ≤ fuel) :
    batchEpochsRun f tol 3 fuel n c = 3 - c := by
  induction fuel generalizing n c with
  | zero => omega
  | succ fuel ih =>
    by_cases hc3 : c = 3
    · simp [batchEpochsRun, hc3]
    · have hstep : earlyStopCounterStep f tol n c = c + 1 := by
        unfold earlyStopCounterStep
        rw [if_pos ⟨by omega, hstall n (le_refl n)⟩]
      simp only [batchEpochsRun, if_neg hc3, hstep]
      rw [ih (n + 1) (c + 1) (by omega) (fun m hm => hstall m (by omega))
        (by omega) (by omega)]
      omega

/-- Before the plateau starts the counter stays at zero: running from epoch
`n ≤ s` with counter 0 executes the remaining pre-plateau epochs plus the
three stalls. -/
theorem batchEpochsRun_preplateau (f : ℕ → ℚ) (tol : ℚ) (s : ℕ) (hs : 1 ≤ s)
    (hstall : ∀ m, s ≤ m → f (m - 1) - f m < tol)
    (hgood : ∀ m, 1 ≤ m → m < s → tol ≤ f (m - 1) - f m) :
    ∀ fuel n, n ≤ s → s - n + 4 ≤ fuel →
      batchEpochsRun f tol 3 fuel n 0 = (s - n) + 3 := by
  intro fuel
  induction fuel with
  | zero => intro n hns hfuel; omega
  | succ fuel ih =>
    intro n hns hfuel
    by_cases hn : n = s
    · subst hn
      rw [batchEpochsRun_plateau f tol n 0 (fuel + 1) hs hstall (by omega)
        (by omega)]
      omega
    · have hns' : n < s := by omega
      have hstep : earlyStopCounterStep f tol n 0 = 0 := by
        unfold earlyStopCounterStep
        rw [if_neg]
        rintro ⟨hpos, hlt⟩
        have hm := hgood n (by omega) hns'
        linarith
      simp only [batchEpochsRun, hstep]
      rw [if_neg (by decide : ¬(0 = 3)), ih (n + 1) (by omega) (by omega)]
      omega

/-- C5: during batch training with early stopping (tolerance `1e-4`,
patience 3), the stall counter — incremented exactly when the improvement
`f (n-1) - f n` is below the tolerance and reset to zero otherwise
(`earlyStopCounterStep`) — makes training stop as soon as it reaches 3: on
a trace with genuine improvements up to epoch `s - 1` and stalls from epoch
`s` on, exactly `s + 3` epoch bodies run (epochs `0 .. s+2`, the last three
being the three consecutive stalls), not more and not fewer. -/
theorem C5_early_stop_third_stall (f : ℕ → ℚ) (s epochs : ℕ)
    (hs : 1 ≤ s) (hepochs : s + 4 ≤ epochs)
    (hstall : ∀ m, s ≤ m → f (m - 1) - f m < 1 / 10000)
    (hgood : ∀ m, 1 ≤ m → m < s → 1 / 10000 ≤ f (m - 1) - f m) :
    batchTrainEpochs f (1 / 10000) 3 epochs = s + 3 := by
  unfold batchTrainEpochs
  rw [batchEpochsRun_preplateau f (1 / 10000) s hs hstall hgood epochs 0 (by omega)
    (by omega)]
  omega

/-- Witness for C5 on the concrete trace `10, 5, 5, 5, ...` (plateau from
epoch 2): a 10-epoch run executes exactly `2 + 3 = 5` epochs. -/
theorem C5_early_stop_third_stall_witness :
    1 ≤ 2 ∧ 2 + 4 ≤ 10 ∧
    (∀ m : ℕ, 2 ≤ m → plateauTrace (m - 1) - plateauTrace m < 1 / 10000) ∧
    (∀ m : ℕ, 1 ≤ m → m < 2 →
      1 / 10000 ≤ plateauTrace (m - 1) - plateauTrace m) ∧
    batchTrainEpochs plateauTrace (1 / 10000) 3 10 = 2 + 3 := by
  have hstall : ∀ m : ℕ, 2 ≤ m →
      plateauTrace (m - 1) - plateauTrace m < 1 / 10000 := by
    intro m hm
    unfold plateauTrace
    rw [if_neg (by omega), if_neg (by omega)]
    norm_num
  have hgood : ∀ m : ℕ, 1 ≤ m → m < 2 →
      1 / 10000 ≤ plateauTrace (m - 1) - plateauTrace m := by
    intro m h1 h2
    have hm : m = 1 := by omega
    subst hm
    unfold plateauTrace
    norm_num
  exact ⟨by norm_num, by norm_num, hstall, hgood,
    C5_early_stop_third_stall plateauTrace 2 10 (by norm_num) (by norm_num)
      hstall hgood⟩

theorem setIdx_cons_zero (x : ℚ) (l : List ℚ) (v : ℚ) :
    setIdx (x :: l) 0 v = some (v :: l) := by
  simp [setIdx]

theorem setIdx_cons_succ (x : ℚ) (l : List ℚ) (i : ℕ) (v : ℚ) :
    setIdx (x :: l) (i + 1) v = (setIdx l i v).map (fun r => x :: r) := by
  by_cases h : i < l.length
  · simp [setIdx, h, List.set_cons_succ]
  · simp [setIdx, h]

/-- `load` on an array whose metadata row has at least three entries. -/
theorem load_cons (a b v : ℚ) (tl : List ℚ) (rest : List (List ℚ)) :
    load ((a :: b :: v :: tl) :: rest) =
      if ratToNat b * ratToNat a ≤ rest.length then
        some ⟨ratToNat a, ratToNat b, decide (v ≠ 0),
          rest.take (ratToNat b * ratToNat a)⟩
      else none := by
  simp only [load]
  rw [if_pos (by simp only [List.length_cons]; omega)]
  simp only [List.getD_cons_succ, List.getD_cons_zero]

/-- C6: save/load round trip.  For a network whose first node has `D ≥ 3`
features and whose node count matches `net_width * net_height`, `save`
produces the metadata row `[height, width, PBC_flag, 0, ...]` zero-padded
to `D` columns followed by the weight rows in flattened node order, and
`load` of that array reproduces the height, the width, the PBC flag and
every node weight row exactly. -/
theorem C6_save_load_round_trip (net : SOMNetState) (w0 : List ℚ)
    (ws : List (List ℚ)) (hw : net.node_weights = w0 :: ws)
    (hD : 3 ≤ w0.length)
    (hcount : net.node_weights.length = net.net_width * net.net_height) :
    save net =
      some (((net.net_height : ℚ) :: (net.net_width : ℚ) ::
        (if net.PBC then (1 : ℚ) else 0) ::
          List.replicate (w0.length - 3) 0) :: net.node_weights) ∧
    (save net).bind load = some net := by
  obtain ⟨H, W, P, nw⟩ := net
  simp only at hw hcount ⊢
  subst hw
  obtain ⟨d, hd⟩ : ∃ d, w0.length = d + 3 := ⟨w0.length - 3, by omega⟩
  have hrep : List.replicate w0.length (0 : ℚ) =
      0 :: 0 :: 0 :: List.replicate d 0 := by
    rw [hd, show d + 3 = 3 + d from by omega, List.replicate_add]
    rfl
  have hd3 : w0.length - 3 = d := by omega
  have hsave : save ⟨H, W, P, w0 :: ws⟩ =
      some (((H : ℚ) :: (W : ℚ) :: (if P then (1 : ℚ) else 0) ::
        List.replicate d 0) :: (w0 :: ws)) := by
    show (setIdx (List.replicate w0.length 0) 0 (H : ℚ)).bind _ = _
    rw [hrep, setIdx_cons_zero]
    simp [setIdx_cons_succ, setIdx_cons_zero]
  have hload : load (((H : ℚ) :: (W : ℚ) :: (if P then (1 : ℚ) else 0) ::
      List.replicate d 0) :: (w0 :: ws)) = some ⟨H, W, P, w0 :: ws⟩ := by
    rw [load_cons]
    have hratH : ratToNat ((H : ℕ) : ℚ) = H := by
      simp [ratToNat]
    have hratW : ratToNat ((W : ℕ) : ℚ) = W := by
      simp [ratToNat]
    have hdec : (decide ((if P then (1 : ℚ) else 0) ≠ 0)) = P := by
      cases P <;> simp
    rw [hratH, hratW, hdec, if_pos (le_of_eq hcount.symm), ← hcount,
      List.take_length]
  rw [hd3, hsave]
  exact ⟨rfl, by simp [hload]⟩

/-- Witness for C6 on a 1×1 network with PBC and one three-feature node. -/
theorem C6_save_load_round_trip_witness :
    (SOMNetState.mk 1 1 true [[(3 : ℚ), 4, 5]]).node_weights =
      [(3 : ℚ), 4, 5] :: [] ∧
    3 ≤ [(3 : ℚ), 4, 5].length ∧
    (SOMNetState.mk 1 1 true [[(3 : ℚ), 4, 5]]).node_weights.length =
      (SOMNetState.mk 1 1 true [[(3 : ℚ), 4, 5]]).net_width *
        (SOMNetState.mk 1 1 true [[(3 : ℚ), 4, 5]]).net_height ∧
    (save (SOMNetState.mk 1 1 true [[(3 : ℚ), 4, 5]]) =
      some ((((SOMNetState.mk 1 1 true [[(3 : ℚ), 4, 5]]).net_height : ℚ) ::
        ((SOMNetState.mk 1 1 true [[(3 : ℚ), 4, 5]]).net_width : ℚ) ::
        (if (SOMNetState.mk 1 1 true [[(3 : ℚ), 4, 5]]).PBC then (1 : ℚ) else 0) ::
          List.replicate ([(3 : ℚ), 4, 5].length - 3) 0) ::
            (SOMNetState.mk 1 1 true [[(3 : ℚ), 4, 5]]).node_weights) ∧
    (save (SOMNetState.mk 1 1 true [[(3 : ℚ), 4, 5]])).bind load =
      some (SOMNetState.mk 1 1 true [[(3 : ℚ), 4, 5]])) :=
  ⟨rfl, by decide, rfl,
    C6_save_load_round_trip _ [(3 : ℚ), 4, 5] [] rfl (by decide) rfl⟩

/-- C10: `save` is only defined for feature dimension at least 3.  The
metadata row is a zero vector of length `D` (the first node's feature
count) into which the height, the width and the PBC flag are written at
indices 0, 1 and 2, so for `D < 3` the assignment indexes past the end of
that row and `save` raises (`none`) instead of producing a file. -/
theorem C10_save_fails_for_low_dimension (net : SOMNetState) (w0 : List ℚ)
    (ws : List (List ℚ)) (hw : net.node_weights = w0 :: ws)
    (hD : w0.length < 3) :
    save net = none := by
  obtain ⟨H, W, P, nw⟩ := net
  simp only at hw
  subst hw
  show (setIdx (List.replicate w0.length 0) 0 (H : ℚ)).bind _ = none
  have h3 : w0.length = 0 ∨ w0.length = 1 ∨ w0.length = 2 := by omega
  rcases h3 with h | h | h
  · rw [h, show List.replicate 0 (0 : ℚ) = [] from rfl]
    simp [setIdx]
  · rw [h, show List.replicate 1 (0 : ℚ) = [0] from rfl, setIdx_cons_zero]
    simp [setIdx_cons_succ, setIdx]
  · rw [h, show List.replicate 2 (0 : ℚ) = [0, 0] from rfl, setIdx_cons_zero]
    simp [setIdx_cons_succ, setIdx]

/-- Witness for C10: a network trained on 1-dimensional data (one feature
per node) cannot be saved. -/
theorem C10_save_fails_for_low_dimension_witness :
    (SOMNetState.mk 1 1 false [[(5 : ℚ)]]).node_weights = [(5 : ℚ)] :: [] ∧
    [(5 : ℚ)].length < 3 ∧
    save (SOMNetState.mk 1 1 false [[(5 : ℚ)]]) = none :=
  ⟨rfl, by decide,
    C10_save_fails_for_low_dimension _ [(5 : ℚ)] [] rfl (by decide)⟩

end SimpSOM
